import Mathlib

/-!
Verification of the Bernstein–Vazirani implementation in `src/BValg.py`
(`BVAlgorithm_qiskit` and its module-level helpers) against the design
document.  The Python source is shallowly embedded below: pure helpers
become Lean functions, the mutable instance (`self`) becomes an explicit
`BVState` record, Python exceptions become explicit error values, and the
`qiskit` circuit object becomes a list of `Gate` placements in program
order.  The external simulator is modelled from the design document where
needed (ideal statevector semantics, unnormalised amplitudes).
-/

namespace BValg

/-- Embeds the loop body of `convert_int_to_list`: each iteration prepends
`k % 2` to the accumulator and halves `k` (`k >> 1`). -/
def convertAux : Nat → Nat → List Nat → List Nat
  | 0, _, acc => acc
  | i + 1, k, acc => convertAux i (k >>> 1) (k % 2 :: acc)

/-- `convert_int_to_list(num_qubits, alginput)` from `BValg.py`: builds the
big-endian bit list of `alginput` by repeatedly inserting `k % 2` at
position 0 and shifting `k` right, `num_qubits` times. -/
def convert_int_to_list (num_qubits : Nat) (alginput : Nat) : List Nat :=
  convertAux num_qubits alginput []

/-- `convert_list_to_int(num_qubits, bitlist)` from `BValg.py`:
`result += bitlist[i] << (num_qubits - 1 - i)` for `i` in
`range(num_qubits)`.  The Python indexing `bitlist[i]` is total on the
call sites (lists of length `num_qubits`); out-of-range reads are embedded
as default `0`. -/
def convert_list_to_int (num_qubits : Nat) (bitlist : List Nat) : Nat :=
  (List.range num_qubits).foldl
    (fun result i => result + (bitlist.getD i 0 <<< (num_qubits - 1 - i))) 0

/-- A gate placement appended to the qiskit circuit: the source uses
`circuit.x`, `circuit.h`, `circuit.cz` and `circuit.measure`. -/
inductive Gate
  | x (wire : Nat)
  | h (wire : Nat)
  | cz (control target : Nat)
  | measure (qubit clbit : Nat)
deriving DecidableEq

/-- `circuit.h(list(...))`: qiskit broadcasts a Hadamard over the wire
list, one `h` gate per listed wire, in list order. -/
def hLayer (wires : List Nat) : List Gate := wires.map Gate.h

/-- `circuit.measure(qlist, clist)`: qiskit pairs the qubit list with the
classical-bit list positionally. -/
def measureOps (qubits clbits : List Nat) : List Gate :=
  (qubits.zip clbits).map fun p => Gate.measure p.1 p.2

/-- `compile_func` of `BVAlgorithm_qiskit` (for validated secrets, so the
stored `_a`, `_b` are the naturals `a`, `b`): walks `i` over the input
wires in ascending order, emitting `cz(i, n-1)` whenever `alist[i] == 1`,
then `x(n-1)` when `b == 1`. -/
def compile_func (n a b : Nat) : List Gate :=
  (let alist := convert_int_to_list (n - 1) a
   (List.range (n - 1)).filterMap fun i =>
     if alist.getD i 0 = 1 then some (Gate.cz i (n - 1)) else none)
  ++ (if b = 1 then [Gate.x (n - 1)] else [])

/-- The gate sequence `construct_circuit` appends for one call:
`x(n-1)`, a Hadamard layer on wires `0..n-2`, the compiled oracle, a
second Hadamard layer on wires `0..n-2`, then measurement of wires
`0..n-2` into classical bits `0..n-2`. -/
def construct_circuit_gates (n a b : Nat) : List Gate :=
  Gate.x (n - 1) ::
    (hLayer (List.range (n - 1)) ++ compile_func n a b
      ++ hLayer (List.range (n - 1))
      ++ measureOps (List.range (n - 1)) (List.range (n - 1)))

/-- `construct_circuit` mutates `self.circuit` in place, appending its
gates to whatever the persistent circuit already holds. -/
def construct_circuit_app (n a b : Nat) (circuit : List Gate) : List Gate :=
  circuit ++ construct_circuit_gates n a b

/-- Python exceptions reachable from the embedded code paths:
`ValueError(msg)` raised explicitly by `set_input`, and the
`ZeroDivisionError` of `result / shots`.  `configError` is the design
document's `ConfigError` class (§7 taxonomy); the source never raises it,
and it appears here only so that its absence can be stated. -/
inductive PyError
  | valueError (msg : String)
  | zeroDivisionError
  | configError
deriving DecidableEq

def arity_msg : String := "Berstain vazirani must have two input parameter a,b!"

def b_msg : String := "b has to be 0 or 1"

def a_msg : String := "a out of range"

/-- The mutable fields of a `BVAlgorithm_qiskit` instance that the
embedded methods read or write.  `_a` and `_b` are `Int` because
`set_input` stores the raw parameters before validating them. -/
structure BVState where
  num_qubits : Nat
  circuit : List Gate
  computed : Bool
  secret_a : Int
  secret_b : Int
  computed_a_value : Int
deriving DecidableEq

/-- `BVAlgorithm_qiskit.__init__(num_qubits)`: fresh empty circuit (with
`num_qubits - 1` classical bits), `computed = False`, `_a = 0`, `_b = 0`,
`computed_a_value = -1`. -/
def bv_init (num_qubits : Nat) : BVState :=
  { num_qubits := num_qubits, circuit := [], computed := false,
    secret_a := 0, secret_b := 0, computed_a_value := -1 }

/-- `set_input(parameter)`: raises on bad arity before touching the
instance; otherwise stores `_a := parameter[0]`, `_b := parameter[1]` and
only then validates `b ∈ {0,1}` and `0 ≤ a < 2^(n-1)`.  The returned pair
is (instance state after the call, raised exception if any). -/
def set_input (s : BVState) (parameter : List Int) : BVState × Option PyError :=
  if parameter.length ≠ 2 then (s, some (PyError.valueError arity_msg))
  else
    let s1 := { s with secret_a := parameter.getD 0 0, secret_b := parameter.getD 1 0 }
    if s1.secret_b ≠ 0 ∧ s1.secret_b ≠ 1 then (s1, some (PyError.valueError b_msg))
    else if ¬ (0 ≤ s1.secret_a ∧ s1.secret_a < 2 ^ (s1.num_qubits - 1)) then
      (s1, some (PyError.valueError a_msg))
    else (s1, none)

/-- `bin(a)` for a natural number, least-significant bit first (so
`bin(a)[2:]` is its reverse); empty for `0`. -/
def natBitsRev (a : Nat) : List Bool :=
  if h : a = 0 then [] else decide (a % 2 = 1) :: natBitsRev (a / 2)
decreasing_by exact Nat.div_lt_self (Nat.pos_of_ne_zero h) one_lt_two

/-- Python `bin(a)[2:]` as a boolean string: most-significant bit first,
and `"0"` (not the empty string) for `a = 0`. -/
def pyBin (a : Nat) : List Bool :=
  if a = 0 then [false] else (natBitsRev a).reverse

/-- Python `str.zfill(w)`: left-pad with zeros up to length `w` (never
truncates). -/
def zfill (w : Nat) (l : List Bool) : List Bool :=
  List.replicate (w - l.length) false ++ l

/-- `a_to_string` of `BVAlgorithm_qiskit`:
`bin(self._a)[2:].zfill(self.num_qubits - 1)[::-1]`, as a boolean
string. -/
def a_to_string (n a : Nat) : List Bool :=
  (zfill (n - 1) (pyBin a)).reverse

/-- The expected-count lookup in `compute_result`:
`counts[self.a_to_string()]` if present else `0`, over the counts mapping
(embedded as an association list of bitstring/occurrence pairs). -/
def lookupCount (counts : List (List Bool × Nat)) (key : List Bool) : Nat :=
  ((counts.find? fun kv => decide (kv.1 = key)).map Prod.snd).getD 0

/-- The part of `compute_result(shots)` that runs in this repository,
after the external simulator returned `counts`: look up
`a_to_string()` in `counts` (default 0), then `accuracy = result/shots`.
Python's `/` raises `ZeroDivisionError` when `shots == 0`; there is no
shot-count validation anywhere in the method. -/
def compute_result (n a : Nat) (counts : List (List Bool × Nat)) (shots : Int) :
    Except PyError ℚ :=
  let result := lookupCount counts (a_to_string n a)
  if shots = 0 then Except.error PyError.zeroDivisionError
  else Except.ok ((result : ℚ) / (shots : ℚ))

/-- `True` exactly on the two-wire correlating gates of the oracle. -/
def isCZ : Gate → Bool
  | Gate.cz _ _ => true
  | _ => false

/-- `True` exactly on Hadamard placements. -/
def isH : Gate → Bool
  | Gate.h _ => true
  | _ => false

/-! ### Characterisation of the bit codec -/

lemma convertAux_eq :
    ∀ (m k : Nat) (acc : List Nat),
      convertAux m k acc = ((List.range m).map fun i => k / 2 ^ (m - 1 - i) % 2) ++ acc := by
  intro m
  induction m with
  | zero => intro k acc; simp [convertAux]
  | succ m ih =>
    intro k acc
    rw [show convertAux (m + 1) k acc = convertAux m (k >>> 1) (k % 2 :: acc) from rfl, ih]
    rw [List.range_succ, List.map_append, List.append_assoc]
    congr 1
    · apply List.map_congr_left
      intro i hi
      have hi' : i < m := List.mem_range.mp hi
      rw [Nat.shiftRight_one, Nat.div_div_eq_div_mul]
      have h2 : (2 : Nat) * 2 ^ (m - 1 - i) = 2 ^ (m + 1 - 1 - i) := by
        rw [← pow_succ']
        congr 1
        omega
      rw [h2]
    · simp

lemma convert_int_to_list_eq (w v : Nat) :
    convert_int_to_list w v = (List.range w).map fun i => v / 2 ^ (w - 1 - i) % 2 := by
  simp [convert_int_to_list, convertAux_eq]

lemma convert_int_to_list_length (w v : Nat) : (convert_int_to_list w v).length = w := by
  simp [convert_int_to_list_eq]

lemma getD_map_range {α : Type} (m j : Nat) (f : Nat → α) (d : α) (h : j < m) :
    ((List.range m).map f).getD j d = f j := by
  rw [List.getD_eq_getElem?_getD, List.getElem?_map, List.getElem?_range h]
  rfl

lemma convert_getD (w v i : Nat) (h : i < w) :
    (convert_int_to_list w v).getD i 0 = v / 2 ^ (w - 1 - i) % 2 := by
  rw [convert_int_to_list_eq]
  exact getD_map_range w i _ 0 h

lemma div_pow_mod_two_eq_testBit (v k : Nat) :
    v / 2 ^ k % 2 = if v.testBit k then 1 else 0 := by
  rcases Nat.mod_two_eq_zero_or_one (v / 2 ^ k) with hm | hm <;>
    simp [Nat.testBit_to_div_mod, hm]

lemma convert_int_to_list_mod (w v : Nat) :
    convert_int_to_list w v = convert_int_to_list w (v % 2 ^ w) := by
  rw [convert_int_to_list_eq, convert_int_to_list_eq]
  apply List.map_congr_left
  intro i hi
  have hi' : i < w := List.mem_range.mp hi
  have hlt : w - 1 - i < w := by omega
  rw [div_pow_mod_two_eq_testBit, div_pow_mod_two_eq_testBit, Nat.testBit_mod_two_pow]
  simp [hlt]

lemma foldl_add_eq (g : Nat → Nat) :
    ∀ (l : List Nat) (s : Nat), l.foldl (fun r i => r + g i) s = s + (l.map g).sum := by
  intro l
  induction l with
  | nil => intro s; simp
  | cons x l ih => intro s; simp [ih, add_assoc]

lemma convert_list_to_int_eq (w : Nat) (bits : List Nat) :
    convert_list_to_int w bits
      = ((List.range w).map fun i => bits.getD i 0 * 2 ^ (w - 1 - i)).sum := by
  simp only [convert_list_to_int, Nat.shiftLeft_eq, foldl_add_eq, Nat.zero_add]

lemma sum_map_two_mul (l : List Nat) (f : Nat → Nat) :
    (l.map fun i => 2 * f i).sum = 2 * (l.map f).sum := by
  induction l with
  | nil => simp
  | cons x l ih => simp [ih, Nat.mul_add]

lemma binary_expansion :
    ∀ (w a : Nat), a < 2 ^ w →
      ((List.range w).map fun i => a / 2 ^ (w - 1 - i) % 2 * 2 ^ (w - 1 - i)).sum = a := by
  intro w
  induction w with
  | zero =>
    intro a ha
    simp only [pow_zero, Nat.lt_one_iff] at ha
    simp [ha]
  | succ w ih =>
    intro a ha
    rw [List.range_succ, List.map_append, List.sum_append]
    have hhead :
        ((List.range w).map fun i => a / 2 ^ (w + 1 - 1 - i) % 2 * 2 ^ (w + 1 - 1 - i)).sum
          = 2 * ((List.range w).map fun i => a / 2 / 2 ^ (w - 1 - i) % 2 * 2 ^ (w - 1 - i)).sum := by
      rw [← sum_map_two_mul]
      apply congrArg
      apply List.map_congr_left
      intro i hi
      have hi' : i < w := List.mem_range.mp hi
      have hexp : w + 1 - 1 - i = (w - 1 - i) + 1 := by omega
      rw [hexp, pow_succ, ← Nat.div_div_eq_div_mul]
      have hsw : a / 2 ^ (w - 1 - i) / 2 = a / 2 / 2 ^ (w - 1 - i) := by
        rw [Nat.div_div_eq_div_mul, Nat.div_div_eq_div_mul, mul_comm]
      rw [hsw]
      ring
    have hdiv : a / 2 < 2 ^ w := by
      have h2 : a < 2 ^ w * 2 := by rw [← pow_succ]; exact ha
      omega
    rw [hhead, ih (a / 2) hdiv]
    simp only [List.map_cons, List.map_nil, List.sum_cons, List.sum_nil]
    have hz : w + 1 - 1 - w = 0 := by omega
    rw [hz]
    simp only [pow_zero, Nat.div_one, mul_one, add_zero]
    omega

/-- C4: `convert_int_to_list` is the big-endian bit decomposition (bit at
list position `i` is bit `width-1-i` of `value`), `convert_list_to_int`
weights list position `i` by `2^(width-1-i)` (position 0 most
significant), and the two round-trip on every valid secret `a`. -/
theorem C4_bit_codec (width value n a i w : Nat) (bits : List Nat)
    (hv : value < 2 ^ width) (hi : i < width) (hn : 2 ≤ n) (ha : a < 2 ^ (n - 1)) :
    ((convert_int_to_list width value).getD i 0
        = if value.testBit (width - 1 - i) then 1 else 0) ∧
    convert_list_to_int w bits
      = ((List.range w).map fun j => bits.getD j 0 * 2 ^ (w - 1 - j)).sum ∧
    convert_list_to_int (n - 1) (convert_int_to_list (n - 1) a) = a := by
  refine ⟨?_, convert_list_to_int_eq w bits, ?_⟩
  · rw [convert_getD width value i hi, div_pow_mod_two_eq_testBit]
  · rw [convert_list_to_int_eq]
    have hcongr :
        ((List.range (n - 1)).map fun j =>
            (convert_int_to_list (n - 1) a).getD j 0 * 2 ^ (n - 1 - 1 - j))
          = (List.range (n - 1)).map fun j => a / 2 ^ (n - 1 - 1 - j) % 2 * 2 ^ (n - 1 - 1 - j) := by
      apply List.map_congr_left
      intro j hj
      rw [convert_getD (n - 1) a j (List.mem_range.mp hj)]
    rw [hcongr, binary_expansion (n - 1) a ha]

theorem C4_bit_codec_witness :
    ((convert_int_to_list 2 3).getD 0 0 = if Nat.testBit 3 (2 - 1 - 0) then 1 else 0) ∧
    convert_list_to_int 2 [1, 0]
      = ((List.range 2).map fun j => [1, 0].getD j 0 * 2 ^ (2 - 1 - j)).sum ∧
    convert_list_to_int (3 - 1) (convert_int_to_list (3 - 1) 2) = 2 :=
  C4_bit_codec 2 3 3 2 0 2 [1, 0] (by decide) (by decide) (by decide) (by decide)

/-- C7 counterexample: with `width = 1` and `value = 2 ≥ 2^1`,
`convert_int_to_list` raises nothing and returns the one-element bit list
`[0]` (the low bit of `2`), so the claimed `RangeError` does not occur. -/
theorem C7_counterexample :
    convert_int_to_list 1 2 = [0] ∧ (convert_int_to_list 1 2).length = 1 := by
  decide

/-- C7 amended: `convert_int_to_list` performs no range check at all; for
every `width` and `value` (including `value ≥ 2^width`) it returns the
length-`width` big-endian bit list of `value mod 2^width`. -/
theorem C7_no_range_check (width value : Nat) :
    convert_int_to_list width value
        = ((List.range width).map fun i => value / 2 ^ (width - 1 - i) % 2) ∧
    (convert_int_to_list width value).length = width ∧
    convert_int_to_list width value = convert_int_to_list width (value % 2 ^ width) :=
  ⟨convert_int_to_list_eq width value, convert_int_to_list_length width value,
    convert_int_to_list_mod width value⟩

/-! ### The oracle plan and the circuit builder -/

lemma filterMap_ite {α β : Type} (q : α → Prop) [DecidablePred q] (g : α → β) (l : List α) :
    (l.filterMap fun x => if q x then some (g x) else none)
      = (l.filter fun x => decide (q x)).map g := by
  induction l with
  | nil => rfl
  | cons x l ih =>
    by_cases h : q x <;> simp [List.filterMap_cons, List.filter_cons, h, ih]

lemma compile_func_eq (n a b : Nat) :
    compile_func n a b
      = (((List.range (n - 1)).filter fun i =>
            decide ((convert_int_to_list (n - 1) a).getD i 0 = 1)).map
          fun i => Gate.cz i (n - 1))
        ++ (if b = 1 then [Gate.x (n - 1)] else []) := by
  simp only [compile_func]
  rw [filterMap_ite]

lemma compile_func_eq_testBit (n a b : Nat) :
    compile_func n a b
      = (((List.range (n - 1)).filter fun i => a.testBit (n - 2 - i)).map
          fun i => Gate.cz i (n - 1))
        ++ (if b = 1 then [Gate.x (n - 1)] else []) := by
  rw [compile_func_eq]
  congr 1
  apply congrArg
  apply List.filter_congr
  intro i hi
  have hi' : i < n - 1 := List.mem_range.mp hi
  rw [convert_getD (n - 1) a i hi', div_pow_mod_two_eq_testBit]
  have hexp : n - 1 - 1 - i = n - 2 - i := by omega
  rw [hexp]
  cases a.testBit (n - 2 - i) <;> simp

lemma mem_compile_func_not_isH (n a b : Nat) :
    ∀ g ∈ compile_func n a b, isH g = false := by
  intro g hg
  rw [compile_func_eq] at hg
  rcases List.mem_append.mp hg with hg | hg
  · rcases List.mem_map.mp hg with ⟨i, _, rfl⟩
    rfl
  · by_cases hb : b = 1
    · subst hb
      rw [if_pos rfl] at hg
      rcases List.mem_singleton.mp hg with rfl
      rfl
    · simp [hb] at hg

/-- C2: the oracle compilation emits exactly one `cz(i, n-1)` for each
input wire `i` whose list-position-`i` bit of `a` (bit `n-2-i`) is 1, in
ascending order of `i`, followed by one `x(n-1)` exactly when `b = 1`;
`a = 0` gives no correlating gate and `a = 2^(n-1)-1` gives one per input
wire. -/
theorem C2_oracle_plan (n a b : Nat) (hn : 2 ≤ n) (ha : a < 2 ^ (n - 1))
    (hb : b = 0 ∨ b = 1) :
    (compile_func n a b
      = (((List.range (n - 1)).filter fun i => a.testBit (n - 2 - i)).map
          fun i => Gate.cz i (n - 1))
        ++ (if b = 1 then [Gate.x (n - 1)] else [])) ∧
    (a = 0 → compile_func n a b = if b = 1 then [Gate.x (n - 1)] else []) ∧
    (a = 2 ^ (n - 1) - 1 → ((compile_func n a b).filter isCZ).length = n - 1) := by
  refine ⟨compile_func_eq_testBit n a b, ?_, ?_⟩
  · intro h0
    subst h0
    rw [compile_func_eq_testBit]
    simp [Nat.zero_testBit]
  · intro hful
    subst hful
    rw [compile_func_eq_testBit, List.filter_append]
    have h1 : ((((List.range (n - 1)).filter fun i => (2 ^ (n - 1) - 1).testBit (n - 2 - i)).map
        fun i => Gate.cz i (n - 1)).filter isCZ).length = n - 1 := by
      rw [List.filter_map]
      have hall : ((List.range (n - 1)).filter fun i => (2 ^ (n - 1) - 1).testBit (n - 2 - i))
          = List.range (n - 1) := by
        apply List.filter_eq_self.mpr
        intro i hi
        have hi' : i < n - 1 := List.mem_range.mp hi
        rw [Nat.testBit_two_pow_sub_one]
        simp only [decide_eq_true_eq]
        omega
      have htrue : (List.filter (isCZ ∘ fun i => Gate.cz i (n - 1))
          ((List.range (n - 1)).filter fun i => (2 ^ (n - 1) - 1).testBit (n - 2 - i)))
          = (List.range (n - 1)).filter fun i => (2 ^ (n - 1) - 1).testBit (n - 2 - i) := by
        apply List.filter_eq_self.mpr
        intro i _
        rfl
      rw [htrue, hall]
      simp
    have h2 : ((if b = 1 then [Gate.x (n - 1)] else []).filter isCZ) = [] := by
      by_cases hb1 : b = 1 <;> simp [hb1, isCZ]
    rw [h2, List.append_nil, h1]

theorem C2_oracle_plan_witness :
    (compile_func 4 5 1
      = (((List.range (4 - 1)).filter fun i => Nat.testBit 5 (4 - 2 - i)).map
          fun i => Gate.cz i (4 - 1))
        ++ (if 1 = 1 then [Gate.x (4 - 1)] else [])) ∧
    ((5 : Nat) = 0 → compile_func 4 5 1 = if 1 = 1 then [Gate.x (4 - 1)] else []) ∧
    ((5 : Nat) = 2 ^ (4 - 1) - 1 → ((compile_func 4 5 1).filter isCZ).length = 4 - 1) :=
  C2_oracle_plan 4 5 1 (by decide) (by decide) (Or.inr rfl)

/-- C3 counterexample: for `n = 2`, `a = 1`, `b = 0`, wire `n-1 = 1`
receives no Hadamard at all in the constructed circuit (while input wire 0
receives both layers), so the Hadamard layers are not applied to all `n`
wires. -/
theorem C3_counterexample :
    (construct_circuit_gates 2 1 0).count (Gate.h 1) = 0 ∧
    (construct_circuit_gates 2 1 0).count (Gate.h 0) = 2 := by
  decide

/-- C3 amended: both Hadamard layers of `construct_circuit` are applied
only to the `n-1` input wires `0..n-2`; the target wire `n-1` never
receives a Hadamard.  (The CZ-style oracle is nevertheless valid because
the target is prepared in state one, where each `cz` acts as a phase on
its input wire — it is the claim's "all n wires" scope that the code does
not have.) -/
theorem C3_hadamard_scope (n a b : Nat) :
    (construct_circuit_gates n a b).filter isH
      = hLayer (List.range (n - 1)) ++ hLayer (List.range (n - 1)) ∧
    Gate.h (n - 1) ∉ construct_circuit_gates n a b := by
  have hlayer : ∀ L : List Nat, (hLayer L).filter isH = hLayer L := by
    intro L
    apply List.filter_eq_self.mpr
    intro g hg
    rcases List.mem_map.mp hg with ⟨w, _, rfl⟩
    rfl
  have hmeas : ∀ qs cs : List Nat, (measureOps qs cs).filter isH = [] := by
    intro qs cs
    apply List.filter_eq_nil_iff.mpr
    intro g hg
    rcases List.mem_map.mp hg with ⟨p, _, rfl⟩
    simp [isH]
  have hcf : (compile_func n a b).filter isH = [] :=
    List.filter_eq_nil_iff.mpr (by
      intro g hg
      simp [mem_compile_func_not_isH n a b g hg])
  have hfilter : (construct_circuit_gates n a b).filter isH
      = hLayer (List.range (n - 1)) ++ hLayer (List.range (n - 1)) := by
    simp only [construct_circuit_gates, List.filter_cons, List.filter_append]
    rw [hlayer, hmeas, hcf]
    simp [isH]
  refine ⟨hfilter, ?_⟩
  intro hmem
  have h2 : Gate.h (n - 1) ∈ (construct_circuit_gates n a b).filter isH :=
    List.mem_filter.mpr ⟨hmem, rfl⟩
  rw [hfilter] at h2
  rcases List.mem_append.mp h2 with h2 | h2 <;>
  · rcases List.mem_map.mp h2 with ⟨w, hw, heq⟩
    injection heq with hwn
    have hww := List.mem_range.mp hw
    omega

theorem C3_hadamard_scope_witness :
    ((construct_circuit_gates 2 1 0).filter isH
      = hLayer (List.range (2 - 1)) ++ hLayer (List.range (2 - 1))) ∧
    Gate.h (2 - 1) ∉ construct_circuit_gates 2 1 0 :=
  C3_hadamard_scope 2 1 0

/-- C6: `set_input` raises the arity `ValueError` on any parameter list of
length ≠ 2 (the design document's `InputError`), the `b` `ValueError` when
`b ∉ {0,1}` (`InputError`), the range `ValueError` when `a` is out of
`[0, 2^(n-1))` (`RangeError`), and otherwise succeeds storing the pair. -/
theorem C6_set_input_validation (s : BVState) (p : List Int) (a b : Int) :
    (p.length ≠ 2 → set_input s p = (s, some (PyError.valueError arity_msg))) ∧
    (b ≠ 0 → b ≠ 1 →
      set_input s [a, b]
        = ({ s with secret_a := a, secret_b := b }, some (PyError.valueError b_msg))) ∧
    ((b = 0 ∨ b = 1) → ¬(0 ≤ a ∧ a < 2 ^ (s.num_qubits - 1)) →
      set_input s [a, b]
        = ({ s with secret_a := a, secret_b := b }, some (PyError.valueError a_msg))) ∧
    ((b = 0 ∨ b = 1) → 0 ≤ a → a < 2 ^ (s.num_qubits - 1) →
      set_input s [a, b] = ({ s with secret_a := a, secret_b := b }, none)) := by
  refine ⟨?_, ?_, ?_, ?_⟩
  · intro h
    simp [set_input, h]
  · intro hb0 hb1
    simp [set_input, hb0, hb1]
  · intro hb ha
    have hbn : ¬(b ≠ 0 ∧ b ≠ 1) := by
      rcases hb with hb | hb <;> simp [hb]
    simp [set_input, hbn, ha]
  · intro hb ha0 ha1
    have hbn : ¬(b ≠ 0 ∧ b ≠ 1) := by
      rcases hb with hb | hb <;> simp [hb]
    simp [set_input, hbn, ha0, ha1]

theorem C6_set_input_validation_witness :
    set_input (bv_init 4) [1] = (bv_init 4, some (PyError.valueError arity_msg)) ∧
    set_input (bv_init 4) [5, 2]
      = ({ bv_init 4 with secret_a := 5, secret_b := 2 }, some (PyError.valueError b_msg)) ∧
    set_input (bv_init 4) [8, 0]
      = ({ bv_init 4 with secret_a := 8, secret_b := 0 }, some (PyError.valueError a_msg)) ∧
    set_input (bv_init 4) [5, 1] = ({ bv_init 4 with secret_a := 5, secret_b := 1 }, none) :=
  ⟨(C6_set_input_validation (bv_init 4) [1] 0 0).1 (by decide),
   (C6_set_input_validation (bv_init 4) [5, 2] 5 2).2.1 (by decide) (by decide),
   (C6_set_input_validation (bv_init 4) [8, 0] 8 0).2.2.1 (Or.inl rfl) (by decide),
   (C6_set_input_validation (bv_init 4) [5, 1] 5 1).2.2.2 (Or.inr rfl) (by decide) (by decide)⟩

/-- C9 counterexample: on a fresh instance (`_b = 0`), `set_input([5, 2])`
raises the `b` `ValueError`, yet afterwards the stored `_b` is `2`: the
secret fields were overwritten before the validation failed. -/
theorem C9_counterexample :
    (set_input (bv_init 4) [5, 2]).2 = some (PyError.valueError b_msg) ∧
    (set_input (bv_init 4) [5, 2]).1.secret_b = 2 ∧ (bv_init 4).secret_b = 0 := by
  refine ⟨?_, ?_, rfl⟩ <;> decide

/-- C9 amended: `set_input` leaves the instance untouched only when the
arity check fails; whenever the parameter list has length 2 — including
the failing `b`- and `a`-validation paths — `_a` and `_b` are overwritten
with the supplied values (all other fields unchanged). -/
theorem C9_not_atomic (s : BVState) (p : List Int) :
    (p.length ≠ 2 → (set_input s p).1 = s) ∧
    (p.length = 2 →
      (set_input s p).1 = { s with secret_a := p.getD 0 0, secret_b := p.getD 1 0 }) := by
  constructor
  · intro h
    simp [set_input, h]
  · intro h
    simp only [set_input, h]
    norm_num
    split_ifs <;> rfl

theorem C9_not_atomic_witness :
    (set_input (bv_init 3) [5]).1 = bv_init 3 ∧
    (set_input (bv_init 3) [0, 2]).1 = { bv_init 3 with secret_a := 0, secret_b := 2 } :=
  ⟨(C9_not_atomic (bv_init 3) [5]).1 (by decide),
   (C9_not_atomic (bv_init 3) [0, 2]).2 (by decide)⟩

/-- C10: `construct_circuit` appends to the persistent instance circuit,
so `k` calls starting from the fresh empty circuit produce exactly `k`
concatenated copies of the single-call gate sequence. -/
theorem C10_circuit_accumulates (n a b k : Nat) :
    (construct_circuit_app n a b)^[k] []
      = (List.replicate k (construct_circuit_gates n a b)).flatten := by
  induction k with
  | zero => simp
  | succ k ih =>
    rw [Function.iterate_succ_apply', ih, List.replicate_succ']
    simp [construct_circuit_app]

/-! ### Result evaluation -/

lemma lookupCount_le_sum (counts : List (List Bool × Nat)) (key : List Bool) :
    lookupCount counts key ≤ (counts.map Prod.snd).sum := by
  unfold lookupCount
  cases hfind : counts.find? fun kv => decide (kv.1 = key) with
  | none => simp
  | some kv =>
    simp only [Option.map_some', Option.getD_some]
    exact List.single_le_sum (fun x _ => Nat.zero_le x) _
      (List.mem_map_of_mem Prod.snd (List.mem_of_find?_eq_some hfind))

lemma lookupCount_eq_zero_iff (counts : List (List Bool × Nat)) (key : List Bool)
    (hpos : ∀ kv ∈ counts, 1 ≤ kv.2) :
    lookupCount counts key = 0 ↔ ∀ kv ∈ counts, kv.1 ≠ key := by
  unfold lookupCount
  cases hfind : counts.find? fun kv => decide (kv.1 = key) with
  | none =>
    simp only [Option.map_none', Option.getD_none, true_iff]
    intro kv hkv hkey
    have := List.find?_eq_none.mp hfind kv hkv
    simp [hkey] at this
  | some kv =>
    simp only [Option.map_some', Option.getD_some]
    have hmem := List.mem_of_find?_eq_some hfind
    have hkey : kv.1 = key := by
      have := List.find?_some hfind
      simpa using this
    constructor
    · intro h0
      have := hpos kv hmem
      omega
    · intro hall
      exact absurd hkey (hall kv hmem)

/-- C5: for any simulator counts mapping (occurrence counts of observed
bitstrings: every value at least 1, values summing to `shots ≥ 1`),
`compute_result` returns `counts.get(a_to_string(), 0) / shots`; the
accuracy lies in `[0, 1]` and is `0` exactly when the expected bitstring
is absent from the mapping. -/
theorem C5_accuracy (n a : Nat) (counts : List (List Bool × Nat)) (shots : Nat)
    (hs : 1 ≤ shots) (hpos : ∀ kv ∈ counts, 1 ≤ kv.2)
    (hsum : (counts.map Prod.snd).sum = shots) :
    compute_result n a counts (shots : Int)
      = Except.ok ((lookupCount counts (a_to_string n a) : ℚ) / (shots : ℚ)) ∧
    0 ≤ (lookupCount counts (a_to_string n a) : ℚ) / (shots : ℚ) ∧
    (lookupCount counts (a_to_string n a) : ℚ) / (shots : ℚ) ≤ 1 ∧
    ((lookupCount counts (a_to_string n a) : ℚ) / (shots : ℚ) = 0 ↔
      ∀ kv ∈ counts, kv.1 ≠ a_to_string n a) := by
  have hsQ : (0 : ℚ) < (shots : ℚ) := by
    exact_mod_cast Nat.lt_of_lt_of_le Nat.zero_lt_one hs
  have hle : lookupCount counts (a_to_string n a) ≤ shots := by
    rw [← hsum]
    exact lookupCount_le_sum counts (a_to_string n a)
  refine ⟨?_, ?_, ?_, ?_⟩
  · have hne : ¬((shots : Int) = 0) := by
      exact_mod_cast Nat.pos_iff_ne_zero.mp (Nat.lt_of_lt_of_le Nat.zero_lt_one hs)
    simp only [compute_result, hne, if_false]
    norm_num
  · exact div_nonneg (by positivity) (le_of_lt hsQ)
  · rw [div_le_one hsQ]
    exact_mod_cast hle
  · rw [div_eq_zero_iff]
    have : ¬((shots : ℚ) = 0) := ne_of_gt hsQ
    simp only [this, or_false, Nat.cast_eq_zero]
    exact lookupCount_eq_zero_iff counts (a_to_string n a) hpos

theorem C5_accuracy_witness :
    (compute_result 3 3 [(a_to_string 3 3, 5)] ((5 : Nat) : Int)
      = Except.ok ((lookupCount [(a_to_string 3 3, 5)] (a_to_string 3 3) : ℚ) / ((5 : Nat) : ℚ))) ∧
    0 ≤ (lookupCount [(a_to_string 3 3, 5)] (a_to_string 3 3) : ℚ) / ((5 : Nat) : ℚ) ∧
    (lookupCount [(a_to_string 3 3, 5)] (a_to_string 3 3) : ℚ) / ((5 : Nat) : ℚ) ≤ 1 ∧
    ((lookupCount [(a_to_string 3 3, 5)] (a_to_string 3 3) : ℚ) / ((5 : Nat) : ℚ) = 0 ↔
      ∀ kv ∈ [(a_to_string 3 3, 5)], kv.1 ≠ a_to_string 3 3) :=
  C5_accuracy 3 3 [(a_to_string 3 3, 5)] 5 (by decide)
    (by intro kv hkv; rcases List.mem_singleton.mp hkv with rfl; decide)
    (by simp)

/-- C8 counterexample: `compute_result` performs no shot-count
validation.  At `shots = -1 ≤ 0` it returns an accuracy value (here `0`,
with empty counts) rather than failing, and at `shots = 0` it fails with
the `ZeroDivisionError` of `result / shots`, not with a `ConfigError`. -/
theorem C8_counterexample :
    compute_result 3 3 [] (-1) = Except.ok 0 ∧
    compute_result 3 3 [] 0 = Except.error PyError.zeroDivisionError := by
  constructor
  · norm_num [compute_result, lookupCount]
  · norm_num [compute_result]

/-- C8 amended: the evaluation code raises no `ConfigError` for any shot
count; the only failure it produces itself is the `ZeroDivisionError` of
the accuracy division when `shots = 0` (negative shot counts are passed
through undetected). -/
theorem C8_no_config_error (n a : Nat) (counts : List (List Bool × Nat)) (shots : Int) :
    compute_result n a counts shots ≠ Except.error PyError.configError ∧
    (shots = 0 → compute_result n a counts shots = Except.error PyError.zeroDivisionError) := by
  constructor
  · intro h
    simp only [compute_result] at h
    split_ifs at h <;> simp at h
  · intro h
    simp [compute_result, h]

theorem C8_no_config_error_witness :
    compute_result 3 3 [] 0 ≠ Except.error PyError.configError ∧
    ((0 : Int) = 0 → compute_result 3 3 [] 0 = Except.error PyError.zeroDivisionError) :=
  C8_no_config_error 3 3 [] 0

/-! ### Ideal statevector semantics

Modelled from the spec: the external `AerSimulator` is a black box that
"runs the circuit for K shots under an optional noise model" (§6); with
`noise_model = None` it is ideal statevector simulation.  States over the
`n` wires are amplitude assignments to the computational basis
(`Fin n → Bool`), kept **unnormalised** over `ℚ`: each Hadamard drops its
global `1/√2` factor, which cancels in the outcome probabilities (they
are ratios of squared amplitudes). -/

def QState (n : Nat) : Type := (Fin n → Bool) → ℚ

/-- Wire `w` of basis vector `x` (false for out-of-range wires). -/
def getWire {n : Nat} (x : Fin n → Bool) (w : Nat) : Bool :=
  if h : w < n then x ⟨w, h⟩ else false

/-- Basis vector `x` with wire `w` forced to `v`. -/
def setWire {n : Nat} (x : Fin n → Bool) (w : Nat) (v : Bool) : Fin n → Bool :=
  fun i => if (i : Nat) = w then v else x i

/-- Pauli X on wire `w`: swaps the two branches of wire `w`. -/
def applyX {n : Nat} (w : Nat) (ψ : QState n) : QState n :=
  fun x => ψ (setWire x w (!(getWire x w)))

/-- Hadamard on wire `w` (unnormalised): `ψ'(x) = ψ(x[w:=0]) ± ψ(x[w:=1])`
with the minus sign when `x` has wire `w` set. -/
def applyH {n : Nat} (w : Nat) (ψ : QState n) : QState n :=
  fun x => ψ (setWire x w false)
    + (if getWire x w then -(ψ (setWire x w true)) else ψ (setWire x w true))

/-- Controlled-Z between wires `c` and `t`: flips the sign of the
amplitude exactly when both wires are set. -/
def applyCZ {n : Nat} (c t : Nat) (ψ : QState n) : QState n :=
  fun x => if getWire x c && getWire x t then -(ψ x) else ψ x

/-- Gate action; measurement placements do not change the pre-measurement
state (the outcome distribution is taken from the final state below). -/
def applyGate {n : Nat} : Gate → QState n → QState n
  | Gate.x w => applyX w
  | Gate.h w => applyH w
  | Gate.cz c t => applyCZ c t
  | Gate.measure _ _ => fun ψ => ψ

def runGates {n : Nat} (gs : List Gate) (ψ : QState n) : QState n :=
  gs.foldl (fun ψ g => applyGate g ψ) ψ

/-- `qiskit.QuantumCircuit(n, n-1)` starts all wires in the all-zero
basis state. -/
def initState (n : Nat) : QState n :=
  fun x => if ∀ i, x i = false then 1 else 0

/-- The pre-measurement state of the circuit `construct_circuit` builds on
a fresh instance with validated secret `(a, b)`. -/
def circuitState (n a b : Nat) : QState n :=
  runGates (construct_circuit_gates n a b) (initState n)

/-- One-wire amplitude factor. -/
def Factor : Type := Bool → ℚ

/-- Product state with factor `f w` on wire `w`. -/
def prodSt {n : Nat} (f : Nat → Factor) : QState n :=
  fun x => ∏ i : Fin n, f (i : Nat) (x i)

/-- Replace the factor of wire `w`. -/
def updF (f : Nat → Factor) (w : Nat) (g : Factor) : Nat → Factor :=
  fun i => if i = w then g else f i

/-- Factor of the zero basis state of one wire. -/
def e0 : Factor := fun v => if v then 0 else 1

/-- One-wire action of X on a factor. -/
def xT (g : Factor) : Factor := fun v => g (!v)

/-- One-wire action of the (unnormalised) Hadamard on a factor. -/
def hT (g : Factor) : Factor :=
  fun v => g false + (if v then -(g true) else g true)

/-- One-wire action of Z on a factor (what a CZ does to its other wire
when this wire's factor is supported on `true`). -/
def zT (g : Factor) : Factor := fun v => if v then -(g true) else g false

lemma setWire_same {n : Nat} (x : Fin n → Bool) (w : Nat) (v : Bool) (hw : w < n) :
    setWire x w v ⟨w, hw⟩ = v := by
  simp [setWire]

lemma setWire_other {n : Nat} (x : Fin n → Bool) (w : Nat) (v : Bool) (i : Fin n)
    (h : (i : Nat) ≠ w) : setWire x w v i = x i := by
  simp [setWire, h]

lemma prodSt_apply_split {n : Nat} (f : Nat → Factor) (x : Fin n → Bool) (w : Nat)
    (hw : w < n) :
    prodSt f x
      = f w (x ⟨w, hw⟩)
        * ∏ i ∈ Finset.univ.erase (⟨w, hw⟩ : Fin n), f (i : Nat) (x i) :=
  (Finset.mul_prod_erase Finset.univ (fun i : Fin n => f (i : Nat) (x i))
    (Finset.mem_univ (⟨w, hw⟩ : Fin n))).symm

lemma erase_prod_congr {n : Nat} (f g : Nat → Factor) (x y : Fin n → Bool) (w : Nat)
    (hw : w < n)
    (h : ∀ i : Fin n, (i : Nat) ≠ w → f (i : Nat) (x i) = g (i : Nat) (y i)) :
    ∏ i ∈ Finset.univ.erase (⟨w, hw⟩ : Fin n), f (i : Nat) (x i)
      = ∏ i ∈ Finset.univ.erase (⟨w, hw⟩ : Fin n), g (i : Nat) (y i) := by
  apply Finset.prod_congr rfl
  intro i hi
  have hiw : (i : Nat) ≠ w := by
    intro hc
    exact (Finset.mem_erase.mp hi).1 (Fin.ext hc)
  exact h i hiw

lemma applyX_prodSt {n : Nat} (w : Nat) (hw : w < n) (f : Nat → Factor) :
    applyX w (prodSt f) = prodSt (updF f w (xT (f w)) : Nat → Factor) (n := n) := by
  funext x
  have hgw : getWire x w = x ⟨w, hw⟩ := by simp [getWire, hw]
  show prodSt f (setWire x w (!(getWire x w))) = prodSt (updF f w (xT (f w))) x
  rw [prodSt_apply_split f (setWire x w (!(getWire x w))) w hw,
    prodSt_apply_split (updF f w (xT (f w))) x w hw]
  have h1 : f w (setWire x w (!(getWire x w)) ⟨w, hw⟩)
      = (updF f w (xT (f w))) w (x ⟨w, hw⟩) := by
    rw [setWire_same x w _ hw, hgw]
    simp [updF, xT]
  have h2 :
      ∏ i ∈ Finset.univ.erase (⟨w, hw⟩ : Fin n),
          f (i : Nat) (setWire x w (!(getWire x w)) i)
        = ∏ i ∈ Finset.univ.erase (⟨w, hw⟩ : Fin n),
            (updF f w (xT (f w))) (i : Nat) (x i) := by
    apply erase_prod_congr
    intro i hi
    rw [setWire_other x w _ i hi]
    simp [updF, hi]
  rw [h1, h2]

lemma applyH_prodSt {n : Nat} (w : Nat) (hw : w < n) (f : Nat → Factor) :
    applyH w (prodSt f) = prodSt (updF f w (hT (f w)) : Nat → Factor) (n := n) := by
  funext x
  have hgw : getWire x w = x ⟨w, hw⟩ := by simp [getWire, hw]
  show prodSt f (setWire x w false)
      + (if getWire x w then -(prodSt f (setWire x w true))
          else prodSt f (setWire x w true))
      = prodSt (updF f w (hT (f w))) x
  rw [prodSt_apply_split f (setWire x w false) w hw,
    prodSt_apply_split f (setWire x w true) w hw,
    prodSt_apply_split (updF f w (hT (f w))) x w hw]
  have h0 :
      ∏ i ∈ Finset.univ.erase (⟨w, hw⟩ : Fin n), f (i : Nat) (setWire x w false i)
        = ∏ i ∈ Finset.univ.erase (⟨w, hw⟩ : Fin n), f (i : Nat) (x i) := by
    apply erase_prod_congr
    intro i hi
    rw [setWire_other x w _ i hi]
  have h1 :
      ∏ i ∈ Finset.univ.erase (⟨w, hw⟩ : Fin n), f (i : Nat) (setWire x w true i)
        = ∏ i ∈ Finset.univ.erase (⟨w, hw⟩ : Fin n), f (i : Nat) (x i) := by
    apply erase_prod_congr
    intro i hi
    rw [setWire_other x w _ i hi]
  have h2 :
      ∏ i ∈ Finset.univ.erase (⟨w, hw⟩ : Fin n), (updF f w (hT (f w))) (i : Nat) (x i)
        = ∏ i ∈ Finset.univ.erase (⟨w, hw⟩ : Fin n), f (i : Nat) (x i) := by
    apply erase_prod_congr
    intro i hi
    simp [updF, hi]
  rw [h0, h1, h2, setWire_same x w _ hw, setWire_same x w _ hw, hgw]
  cases hxw : x ⟨w, hw⟩ <;> simp [hT, updF, hxw] <;> ring

lemma applyCZ_prodSt {n : Nat} (c t : Nat) (hc : c < n) (ht : t < n) (hct : c ≠ t)
    (f : Nat → Factor) (h0 : f t false = 0) :
    applyCZ c t (prodSt f) = prodSt (updF f c (zT (f c)) : Nat → Factor) (n := n) := by
  funext x
  have hgc : getWire x c = x ⟨c, hc⟩ := by simp [getWire, hc]
  have hgt : getWire x t = x ⟨t, ht⟩ := by simp [getWire, ht]
  show (if getWire x c && getWire x t then -(prodSt f x) else prodSt f x)
      = prodSt (updF f c (zT (f c))) x
  cases hxt : x ⟨t, ht⟩ with
  | false =>
    have hL : prodSt f x = 0 := by
      rw [prodSt_apply_split f x t ht, hxt, h0, zero_mul]
    have hR : prodSt (updF f c (zT (f c))) x = 0 := by
      rw [prodSt_apply_split _ x t ht, hxt]
      have hut : updF f c (zT (f c)) t = f t := by
        simp [updF, Ne.symm hct]
      rw [hut, h0, zero_mul]
    rw [hL, hR]
    simp
  | true =>
    rw [prodSt_apply_split f x c hc, prodSt_apply_split (updF f c (zT (f c))) x c hc]
    have h2 :
        ∏ i ∈ Finset.univ.erase (⟨c, hc⟩ : Fin n), (updF f c (zT (f c))) (i : Nat) (x i)
          = ∏ i ∈ Finset.univ.erase (⟨c, hc⟩ : Fin n), f (i : Nat) (x i) := by
      apply erase_prod_congr
      intro i hi
      simp [updF, hi]
    rw [h2, hgc, hgt, hxt]
    cases hxc : x ⟨c, hc⟩ <;> simp [zT, updF, hxc] <;> ring

lemma runGates_append {n : Nat} (l1 l2 : List Gate) (ψ : QState n) :
    runGates (l1 ++ l2) ψ = runGates l2 (runGates l1 ψ) :=
  List.foldl_append _ _ l1 l2

lemma runGates_cons {n : Nat} (g : Gate) (l : List Gate) (ψ : QState n) :
    runGates (g :: l) ψ = runGates l (applyGate g ψ) := rfl

lemma runGates_hLayer {n : Nat} (L : List Nat) (hL : ∀ w ∈ L, w < n) (f : Nat → Factor) :
    runGates (hLayer L) (prodSt f : QState n)
      = prodSt (L.foldl (fun f w => updF f w (hT (f w))) f) := by
  induction L generalizing f with
  | nil => rfl
  | cons w L ih =>
    have hw : w < n := hL w (List.mem_cons_self w L)
    simp only [hLayer, List.map_cons, List.foldl_cons]
    rw [runGates_cons]
    show runGates (hLayer L) (applyH w (prodSt f)) = _
    rw [applyH_prodSt w hw f]
    exact ih (fun w' hw' => hL w' (List.mem_cons_of_mem w hw')) _

lemma runGates_czChain {n : Nat} (C : List Nat) (t : Nat) (ht : t < n)
    (hC : ∀ c ∈ C, c < n ∧ c ≠ t) (f : Nat → Factor) (h0 : f t false = 0) :
    runGates (C.map fun c => Gate.cz c t) (prodSt f : QState n)
      = prodSt (C.foldl (fun f c => updF f c (zT (f c))) f) := by
  induction C generalizing f with
  | nil => rfl
  | cons c C ih =>
    obtain ⟨hc, hct⟩ := hC c (List.mem_cons_self c C)
    simp only [List.map_cons, List.foldl_cons]
    rw [runGates_cons]
    show runGates (C.map fun c => Gate.cz c t) (applyCZ c t (prodSt f)) = _
    rw [applyCZ_prodSt c t hc ht hct f h0]
    apply ih (fun c' hc' => hC c' (List.mem_cons_of_mem c hc'))
    simp [updF, Ne.symm hct, h0]

lemma runGates_measureOps {n : Nat} (qs cs : List Nat) (ψ : QState n) :
    runGates (measureOps qs cs) ψ = ψ := by
  unfold measureOps
  generalize qs.zip cs = l
  induction l generalizing ψ with
  | nil => rfl
  | cons p l ih =>
    rw [List.map_cons, runGates_cons]
    exact ih _

lemma foldl_updF_eval (T : Factor → Factor) :
    ∀ (L : List Nat), L.Nodup → ∀ (f : Nat → Factor) (i : Nat),
      (L.foldl (fun f w => updF f w (T (f w))) f) i = if i ∈ L then T (f i) else f i := by
  intro L
  induction L with
  | nil => intro _ f i; simp
  | cons w L ih =>
    intro hnd f i
    obtain ⟨hw, hnd'⟩ := List.nodup_cons.mp hnd
    rw [List.foldl_cons, ih hnd']
    by_cases hiL : i ∈ L
    · have hiw : i ≠ w := fun hc => hw (hc ▸ hiL)
      simp [hiL, List.mem_cons, hiw, updF]
    · by_cases hiw : i = w
      · subst hiw
        simp [hiL, updF]
      · simp [hiL, hiw, updF, List.mem_cons]

/-! ### Computing the circuit's final state

The circuit stays in product form throughout: `f0F … f5F` are the per-wire
factor functions after each stage (initialisation, the `x(n-1)`, the first
Hadamard layer, the `cz` chain, the optional `x(n-1)` for `b`, the second
Hadamard layer). -/

def f0F : Nat → Factor := fun _ => e0

def f1F (n : Nat) : Nat → Factor := updF f0F (n - 1) (xT (f0F (n - 1)))

def f2F (n : Nat) : Nat → Factor :=
  (List.range (n - 1)).foldl (fun f w => updF f w (hT (f w))) (f1F n)

/-- The ascending list of input wires carrying a `cz`, as selected by
`compile_func`. -/
def czListC (n a : Nat) : List Nat :=
  (List.range (n - 1)).filter fun i => decide ((convert_int_to_list (n - 1) a).getD i 0 = 1)

def f3F (n a : Nat) : Nat → Factor :=
  (czListC n a).foldl (fun f c => updF f c (zT (f c))) (f2F n)

def f4F (n a b : Nat) : Nat → Factor :=
  if b = 1 then updF (f3F n a) (n - 1) (xT (f3F n a (n - 1))) else f3F n a

def f5F (n a b : Nat) : Nat → Factor :=
  (List.range (n - 1)).foldl (fun f w => updF f w (hT (f w))) (f4F n a b)

/-- The deterministic final value of each wire: inputs `i < n-1` end in
bit `n-2-i` of `a`; the target ends in `1` unless `b = 1` flipped it. -/
def finalBit (n a b : Nat) (i : Nat) : Bool :=
  if i = n - 1 then !(decide (b = 1)) else a.testBit (n - 2 - i)

lemma compile_func_eq_czListC (n a b : Nat) :
    compile_func n a b
      = ((czListC n a).map fun i => Gate.cz i (n - 1))
        ++ (if b = 1 then [Gate.x (n - 1)] else []) :=
  compile_func_eq n a b

lemma initState_prodSt (n : Nat) : initState n = prodSt f0F (n := n) := by
  funext x
  show (if ∀ i, x i = false then (1 : ℚ) else 0) = ∏ i : Fin n, f0F (i : Nat) (x i)
  by_cases h : ∀ i, x i = false
  · rw [if_pos h]
    symm
    apply Finset.prod_eq_one
    intro i _
    rw [show f0F (i : Nat) = e0 from rfl, h i]
    rfl
  · rw [if_neg h]
    push_neg at h
    obtain ⟨i0, hi0⟩ := h
    symm
    apply Finset.prod_eq_zero (Finset.mem_univ i0)
    have hx : x i0 = true := by
      cases hx : x i0
      · exact absurd hx hi0
      · rfl
    rw [show f0F (i0 : Nat) = e0 from rfl, hx]
    rfl

lemma runGates_xb {n : Nat} (b w : Nat) (hw : w < n) (f : Nat → Factor) :
    runGates (if b = 1 then [Gate.x w] else []) (prodSt f : QState n)
      = prodSt (if b = 1 then updF f w (xT (f w)) else f) := by
  by_cases hb : b = 1
  · rw [if_pos hb, if_pos hb]
    show applyX w (prodSt f) = _
    exact applyX_prodSt w hw f
  · rw [if_neg hb, if_neg hb]
    rfl

lemma mem_czListC (n a i : Nat) (hi : i < n - 1) :
    i ∈ czListC n a ↔ a.testBit (n - 2 - i) = true := by
  have hval : (convert_int_to_list (n - 1) a).getD i 0
      = if a.testBit (n - 1 - 1 - i) then 1 else 0 := by
    rw [convert_getD (n - 1) a i hi, div_pow_mod_two_eq_testBit]
  have hexp : n - 1 - 1 - i = n - 2 - i := by omega
  rw [hexp] at hval
  unfold czListC
  rw [List.mem_filter]
  simp only [List.mem_range]
  rw [List.getD_eq_getElem?_getD] at hval
  cases ht : a.testBit (n - 2 - i) <;> rw [ht] at hval <;> simp [hval, hi]

lemma czListC_sub (n a : Nat) (hn : 1 ≤ n) :
    ∀ c ∈ czListC n a, c < n ∧ c ≠ n - 1 := by
  intro c hc
  have := List.mem_range.mp (List.mem_of_mem_filter hc)
  omega

lemma czListC_nodup (n a : Nat) : (czListC n a).Nodup :=
  (List.nodup_range (n - 1)).filter _

lemma f1F_input (n i : Nat) (hi : i ≠ n - 1) : f1F n i = e0 := by
  simp [f1F, updF, hi, f0F]

lemma f1F_target (n : Nat) : f1F n (n - 1) = xT e0 := by
  simp [f1F, updF, f0F]

lemma f2F_input (n i : Nat) (hi : i < n - 1) : f2F n i = hT e0 := by
  unfold f2F
  rw [foldl_updF_eval hT _ (List.nodup_range (n - 1)),
    if_pos (List.mem_range.mpr hi), f1F_input n i (by omega)]

lemma f2F_target (n : Nat) : f2F n (n - 1) = xT e0 := by
  unfold f2F
  rw [foldl_updF_eval hT _ (List.nodup_range (n - 1)), if_neg (by simp), f1F_target n]

lemma f3F_input (n a i : Nat) (hi : i < n - 1) :
    f3F n a i = if i ∈ czListC n a then zT (hT e0) else hT e0 := by
  unfold f3F
  rw [foldl_updF_eval zT _ (czListC_nodup n a)]
  by_cases hiC : i ∈ czListC n a <;> simp [hiC, f2F_input n i hi]

lemma f3F_target (n a : Nat) (hn : 1 ≤ n) : f3F n a (n - 1) = xT e0 := by
  unfold f3F
  rw [foldl_updF_eval zT _ (czListC_nodup n a), if_neg, f2F_target n]
  intro hc
  exact (czListC_sub n a hn (n - 1) hc).2 rfl

lemma f4F_input (n a b i : Nat) (hi : i < n - 1) : f4F n a b i = f3F n a i := by
  unfold f4F
  by_cases hb1 : b = 1 <;> simp [hb1, updF, show i ≠ n - 1 by omega]

lemma f4F_target (n a b : Nat) (hn : 1 ≤ n) :
    f4F n a b (n - 1) = if b = 1 then xT (xT e0) else xT e0 := by
  unfold f4F
  by_cases hb1 : b = 1 <;> simp [hb1, updF, f3F_target n a hn]

lemma f5F_input (n a b i : Nat) (hi : i < n - 1) : f5F n a b i = hT (f3F n a i) := by
  unfold f5F
  rw [foldl_updF_eval hT _ (List.nodup_range (n - 1)),
    if_pos (List.mem_range.mpr hi), f4F_input n a b i hi]

lemma f5F_target (n a b : Nat) : f5F n a b (n - 1) = f4F n a b (n - 1) := by
  unfold f5F
  rw [foldl_updF_eval hT _ (List.nodup_range (n - 1)), if_neg (by simp)]

lemma hT_e0_eq : hT e0 = fun _ => (1 : ℚ) := by
  funext v
  cases v <;> simp [hT, e0]

lemma hT_one_eq : hT (fun _ => (1 : ℚ)) = fun v => if v then 0 else 2 := by
  funext v
  cases v <;> norm_num [hT]

lemma hT_zT_one_eq : hT (zT (fun _ => (1 : ℚ))) = fun v => if v then 2 else 0 := by
  funext v
  cases v <;> norm_num [hT, zT]

lemma xT_xT_e0_eq : xT (xT e0) = e0 := by
  funext v
  cases v <;> rfl

lemma f2F_t0_aux (n : Nat) : f2F n (n - 1) false = 0 := by
  rw [f2F_target n]
  rfl

lemma circuitState_eq_prodSt (n a b : Nat) (hn : 1 ≤ n) :
    circuitState n a b = prodSt (f5F n a b) := by
  have hR : ∀ w ∈ List.range (n - 1), w < n := by
    intro w hw
    have := List.mem_range.mp hw
    omega
  have ht : n - 1 < n := by omega
  unfold circuitState
  rw [initState_prodSt n]
  simp only [construct_circuit_gates]
  rw [runGates_cons]
  simp only [applyGate]
  rw [applyX_prodSt (n - 1) ht f0F]
  rw [runGates_append, runGates_append, runGates_append]
  rw [runGates_hLayer (List.range (n - 1)) hR]
  rw [compile_func_eq_czListC n a b, runGates_append]
  rw [runGates_czChain (czListC n a) (n - 1) ht (czListC_sub n a hn)]
  · rw [runGates_xb b (n - 1) ht]
    rw [runGates_hLayer (List.range (n - 1)) hR]
    rw [runGates_measureOps]
    rfl
  · exact f2F_t0_aux n

lemma prodSt_eq_delta (n a b : Nat) (hn : 1 ≤ n) (f : Nat → Factor)
    (hin : ∀ i, i < n - 1 → f i = fun v => if v = finalBit n a b i then (2 : ℚ) else 0)
    (htar : f (n - 1) = fun v => if v = finalBit n a b (n - 1) then (1 : ℚ) else 0) :
    prodSt f = fun x : Fin n → Bool =>
      if ∀ i : Fin n, x i = finalBit n a b (i : Nat) then (2 : ℚ) ^ (n - 1) else 0 := by
  funext x
  by_cases hall : ∀ i : Fin n, x i = finalBit n a b (i : Nat)
  · rw [if_pos hall]
    show ∏ i : Fin n, f (i : Nat) (x i) = 2 ^ (n - 1)
    have hfac : ∀ i : Fin n, f (i : Nat) (x i) = if (i : Nat) = n - 1 then (1 : ℚ) else 2 := by
      intro i
      by_cases hi : (i : Nat) = n - 1
      · rw [hall i, hi, htar]
        simp
      · have hilt : (i : Nat) < n - 1 := by
          have := i.isLt
          omega
        rw [hin (i : Nat) hilt, hall i]
        simp [hi]
    rw [Finset.prod_congr rfl fun i _ => hfac i]
    rw [Fin.prod_univ_eq_prod_range (fun j => if j = n - 1 then (1 : ℚ) else 2) n]
    have hrange : Finset.range n = Finset.range ((n - 1) + 1) := by
      congr 1
      omega
    rw [hrange, Finset.prod_range_succ, if_pos rfl, mul_one]
    have hconst : ∀ j ∈ Finset.range (n - 1), (if j = n - 1 then (1 : ℚ) else 2) = 2 := by
      intro j hj
      have := Finset.mem_range.mp hj
      simp [show j ≠ n - 1 by omega]
    rw [Finset.prod_congr rfl hconst, Finset.prod_const, Finset.card_range]
  · rw [if_neg hall]
    push_neg at hall
    obtain ⟨i0, hi0⟩ := hall
    show ∏ i : Fin n, f (i : Nat) (x i) = 0
    apply Finset.prod_eq_zero (Finset.mem_univ i0)
    by_cases hi : (i0 : Nat) = n - 1
    · rw [hi] at hi0 ⊢
      rw [htar]
      simp [hi0]
    · have hilt : (i0 : Nat) < n - 1 := by
        have := i0.isLt
        omega
      rw [hin (i0 : Nat) hilt]
      simp [hi0]

/-- The final (pre-measurement) state of the constructed circuit is the
single computational basis state `finalBit` with (unnormalised) amplitude
`2^(n-1)`: the noiseless circuit is deterministic. -/
theorem circuitState_eq (n a b : Nat) (hn : 1 ≤ n) :
    circuitState n a b = fun x : Fin n → Bool =>
      if ∀ i : Fin n, x i = finalBit n a b (i : Nat) then (2 : ℚ) ^ (n - 1) else 0 := by
  rw [circuitState_eq_prodSt n a b hn]
  apply prodSt_eq_delta n a b hn
  · intro i hi
    rw [f5F_input n a b i hi, f3F_input n a i hi]
    have hnb : finalBit n a b i = a.testBit (n - 2 - i) := by
      simp [finalBit, show i ≠ n - 1 by omega]
    by_cases hiC : i ∈ czListC n a
    · rw [if_pos hiC, hT_e0_eq, hT_zT_one_eq]
      have hbit : a.testBit (n - 2 - i) = true := (mem_czListC n a i hi).mp hiC
      funext v
      rw [hnb, hbit]
    · rw [if_neg hiC, hT_e0_eq, hT_one_eq]
      have hbit : a.testBit (n - 2 - i) = false := by
        cases htb : a.testBit (n - 2 - i)
        · rfl
        · exact absurd ((mem_czListC n a i hi).mpr htb) hiC
      funext v
      rw [hnb, hbit]
      cases v <;> simp
  · rw [f5F_target, f4F_target n a b hn]
    by_cases hb1 : b = 1
    · rw [if_pos hb1, xT_xT_e0_eq]
      have hfb : finalBit n a b (n - 1) = false := by simp [finalBit, hb1]
      funext v
      rw [hfb]
      cases v <;> simp [e0]
    · rw [if_neg hb1]
      have hfb : finalBit n a b (n - 1) = true := by simp [finalBit, hb1]
      funext v
      rw [hfb]
      cases v <;> simp [xT, e0]

/-! ### The expected bitstring -/

lemma natBitsRev_getD : ∀ (a j : Nat), (natBitsRev a).getD j false = a.testBit j := by
  intro a
  induction a using Nat.strong_induction_on with
  | _ a ih =>
    intro j
    by_cases h0 : a = 0
    · subst h0
      rw [natBitsRev, dif_pos rfl]
      simp [Nat.zero_testBit]
    · rw [natBitsRev, dif_neg h0]
      cases j with
      | zero => simp [Nat.testBit_zero]
      | succ j =>
        have hlt : a / 2 < a := Nat.div_lt_self (Nat.pos_of_ne_zero h0) one_lt_two
        rw [List.getD_cons_succ, Nat.testBit_succ]
        exact ih (a / 2) hlt j

lemma natBitsRev_lt : ∀ (a : Nat), a < 2 ^ (natBitsRev a).length := by
  intro a
  induction a using Nat.strong_induction_on with
  | _ a ih =>
    by_cases h0 : a = 0
    · subst h0
      rw [natBitsRev, dif_pos rfl]
      simp
    · rw [natBitsRev, dif_neg h0]
      have hlt : a / 2 < a := Nat.div_lt_self (Nat.pos_of_ne_zero h0) one_lt_two
      have ih' := ih (a / 2) hlt
      simp only [List.length_cons, pow_succ]
      omega

lemma natBitsRev_length_le : ∀ (a w : Nat), a < 2 ^ w → (natBitsRev a).length ≤ w := by
  intro a
  induction a using Nat.strong_induction_on with
  | _ a ih =>
    intro w hw
    by_cases h0 : a = 0
    · subst h0
      rw [natBitsRev, dif_pos rfl]
      simp
    · rw [natBitsRev, dif_neg h0]
      cases w with
      | zero =>
        exfalso
        have : a < 1 := by simpa using hw
        omega
      | succ w =>
        have hlt : a / 2 < a := Nat.div_lt_self (Nat.pos_of_ne_zero h0) one_lt_two
        have hdiv : a / 2 < 2 ^ w := by
          have h2 : a < 2 ^ w * 2 := by
            rw [← pow_succ]
            exact hw
          omega
        have := ih (a / 2) hlt w hdiv
        simp only [List.length_cons]
        omega

lemma list_eq_of_getD :
    ∀ (l₁ l₂ : List Bool), l₁.length = l₂.length →
      (∀ j, l₁.getD j false = l₂.getD j false) → l₁ = l₂ := by
  intro l₁
  induction l₁ with
  | nil =>
    intro l₂ hlen _
    cases l₂ with
    | nil => rfl
    | cons y m => exact absurd hlen (by simp)
  | cons x l ih =>
    intro l₂ hlen hget
    cases l₂ with
    | nil => exact absurd hlen (by simp)
    | cons y m =>
      have hx : x = y := by
        have := hget 0
        simpa using this
      have hl : l = m := by
        apply ih m (by simpa using hlen)
        intro j
        have := hget (j + 1)
        simpa using this
      rw [hx, hl]

lemma pyBin_reverse_getD (a : Nat) : ∀ j, ((pyBin a).reverse).getD j false = a.testBit j := by
  intro j
  by_cases h0 : a = 0
  · subst h0
    rw [show (pyBin 0).reverse = [false] from rfl]
    cases j <;> simp [Nat.zero_testBit]
  · rw [show (pyBin a).reverse = natBitsRev a by simp [pyBin, h0]]
    exact natBitsRev_getD a j

lemma pyBin_reverse_lt (a : Nat) : a < 2 ^ ((pyBin a).reverse).length := by
  by_cases h0 : a = 0
  · subst h0
    simp [pyBin]
  · rw [show (pyBin a).reverse = natBitsRev a by simp [pyBin, h0]]
    exact natBitsRev_lt a

lemma pyBin_length_le (a w : Nat) (hw : 1 ≤ w) (ha : a < 2 ^ w) : (pyBin a).length ≤ w := by
  by_cases h0 : a = 0
  · subst h0
    simpa [pyBin] using hw
  · rw [pyBin, if_neg h0, List.length_reverse]
    exact natBitsRev_length_le a w ha

/-- For a valid secret, `a_to_string` is the list of bits of `a` from the
least significant upward — exactly the bit order in which the simulator
reports the measured classical register (classical bit `n-2` leftmost). -/
lemma a_to_string_eq (n a : Nat) (hn : 2 ≤ n) (ha : a < 2 ^ (n - 1)) :
    a_to_string n a = (List.range (n - 1)).map fun p => a.testBit p := by
  have hlen : (pyBin a).length ≤ n - 1 := pyBin_length_le a (n - 1) (by omega) ha
  have hshape : a_to_string n a
      = (pyBin a).reverse ++ List.replicate (n - 1 - (pyBin a).length) false := by
    unfold a_to_string zfill
    rw [List.reverse_append, List.reverse_replicate]
  have hrl : ((pyBin a).reverse).length = (pyBin a).length := List.length_reverse _
  apply list_eq_of_getD
  · rw [hshape]
    simp only [List.length_append, List.length_reverse, List.length_replicate,
      List.length_map, List.length_range]
    omega
  · intro j
    rw [hshape]
    by_cases hj : j < ((pyBin a).reverse).length
    · have hjn : j < n - 1 := by omega
      rw [List.getD_eq_getElem?_getD, List.getElem?_append, if_pos hj,
        ← List.getD_eq_getElem?_getD, pyBin_reverse_getD a j, getD_map_range _ _ _ _ hjn]
    · push_neg at hj
      have hrep : (List.replicate (n - 1 - (pyBin a).length) false).getD
          (j - ((pyBin a).reverse).length) false = false := by
        rw [List.getD_eq_getElem?_getD, List.getElem?_replicate]
        split <;> rfl
      rw [List.getD_eq_getElem?_getD, List.getElem?_append_right hj,
        ← List.getD_eq_getElem?_getD, hrep]
      by_cases hjn : j < n - 1
      · rw [getD_map_range _ _ _ _ hjn]
        have hja : a < 2 ^ j :=
          lt_of_lt_of_le (pyBin_reverse_lt a) (Nat.pow_le_pow_right (by norm_num) hj)
        exact (Nat.testBit_lt_two_pow hja).symm
      · rw [List.getD_eq_default]
        simp only [List.length_map, List.length_range]
        omega

/-! ### Outcome distribution and the end-to-end noiseless run -/

/-- The classical bitstring the simulator reports for basis state `x`:
classical bit `j` holds wire `j` (`measure` pairs them identically), and
qiskit prints the highest classical bit first. -/
def readout (n : Nat) (x : Fin n → Bool) : List Bool :=
  (List.range (n - 1)).map fun p => getWire x (n - 2 - p)

/-- Modelled from the spec: the probability that one ideal shot of a
circuit with pre-measurement state `ψ` reports the bitstring `s` — the
squared amplitude mass of the basis states reading out `s`, normalised by
the total squared amplitude. -/
def outcomeProb (n : Nat) (ψ : QState n) (s : List Bool) : ℚ :=
  (∑ x : Fin n → Bool, if readout n x = s then ψ x ^ 2 else 0)
    / (∑ x : Fin n → Bool, ψ x ^ 2)

lemma readout_final (n a b : Nat) (hn : 2 ≤ n) (ha : a < 2 ^ (n - 1)) :
    readout n (fun i : Fin n => finalBit n a b (i : Nat)) = a_to_string n a := by
  rw [a_to_string_eq n a hn ha]
  unfold readout
  apply List.map_congr_left
  intro p hp
  have hp' : p < n - 1 := List.mem_range.mp hp
  have h1 : n - 2 - p < n := by omega
  have hgw : getWire (fun i : Fin n => finalBit n a b (i : Nat)) (n - 2 - p)
      = finalBit n a b (n - 2 - p) := by
    unfold getWire
    rw [dif_pos h1]
  rw [hgw]
  have hne : n - 2 - p ≠ n - 1 := by omega
  simp only [finalBit, if_neg hne]
  congr 1
  omega

lemma outcomeProb_delta (n : Nat) (c : ℚ) (hc : c ≠ 0) (y : Fin n → Bool) (s : List Bool)
    (hs : readout n y = s) :
    outcomeProb n (fun x => if (∀ i : Fin n, x i = y i) then c else 0) s = 1 := by
  unfold outcomeProb
  have hnum :
      (∑ x : Fin n → Bool,
          if readout n x = s then (if (∀ i : Fin n, x i = y i) then c else 0) ^ 2 else 0)
        = c ^ 2 := by
    rw [Finset.sum_eq_single y]
    · rw [if_pos hs, if_pos fun i => rfl]
    · intro x _ hx
      have hnall : ¬ ∀ i : Fin n, x i = y i := by
        intro hall
        exact hx (funext hall)
      rw [if_neg hnall]
      simp
    · intro hy
      exact absurd (Finset.mem_univ y) hy
  have hden :
      (∑ x : Fin n → Bool, (if (∀ i : Fin n, x i = y i) then c else 0) ^ 2) = c ^ 2 := by
    rw [Finset.sum_eq_single y]
    · rw [if_pos fun i => rfl]
    · intro x _ hx
      have hnall : ¬ ∀ i : Fin n, x i = y i := by
        intro hall
        exact hx (funext hall)
      rw [if_neg hnall]
      simp
    · intro hy
      exact absurd (Finset.mem_univ y) hy
  rw [hnum, hden, div_self (pow_ne_zero 2 hc)]

/-- The noiseless circuit puts all its outcome probability on the
expected bitstring `a_to_string`. -/
theorem outcomeProb_point (n a b : Nat) (hn : 2 ≤ n) (ha : a < 2 ^ (n - 1)) :
    outcomeProb n (circuitState n a b) (a_to_string n a) = 1 := by
  rw [circuitState_eq n a b (by omega)]
  exact outcomeProb_delta n ((2 : ℚ) ^ (n - 1))
    (pow_ne_zero _ two_ne_zero) (fun i : Fin n => finalBit n a b (i : Nat))
    (a_to_string n a) (readout_final n a b hn ha)

/-- Modelled from the spec: the counts mapping an ideal noiseless run with
`shots` trials returns — each bitstring's expected occurrence count
`shots × probability` (exact for this deterministic circuit, where the
distribution is a point mass). -/
def noiseless_counts (n a b shots : Nat) (s : List Bool) : ℚ :=
  (shots : ℚ) * outcomeProb n (circuitState n a b) s

/-- `compute_result` on the ideal noiseless counts: look up `a_to_string`
(if present, else 0) and divide by `shots`. -/
def noiseless_compute_result (n a b shots : Nat) : ℚ :=
  (if noiseless_counts n a b shots (a_to_string n a) ≠ 0
    then noiseless_counts n a b shots (a_to_string n a) else 0) / (shots : ℚ)

/-- C1: for every valid secret on `n ≥ 2` wires, `set_input` succeeds and
the circuit built by `construct_circuit`, run with no noise model for any
positive number of shots, yields accuracy exactly 1 from
`compute_result`. -/
theorem C1_noiseless_accuracy (n a b shots : Nat) (hn : 2 ≤ n) (ha : a < 2 ^ (n - 1))
    (hb : b = 0 ∨ b = 1) (hs : 1 ≤ shots) :
    (set_input (bv_init n) [(a : Int), (b : Int)]).2 = none ∧
    noiseless_compute_result n a b shots = 1 := by
  constructor
  · have ha0 : (0 : Int) ≤ (a : Int) := Int.ofNat_nonneg a
    have ha1 : (a : Int) < 2 ^ ((bv_init n).num_qubits - 1) := by
      show (a : Int) < 2 ^ (n - 1)
      exact_mod_cast ha
    rcases hb with h | h <;> simp [set_input, h, ha0, ha1]
  · unfold noiseless_compute_result noiseless_counts
    rw [outcomeProb_point n a b hn ha, mul_one]
    have hs0 : ((shots : ℚ)) ≠ 0 := Nat.cast_ne_zero.mpr (by omega)
    rw [if_pos hs0, div_self hs0]

theorem C1_noiseless_accuracy_witness :
    (set_input (bv_init 3) [(3 : Int), (0 : Int)]).2 = none ∧
    noiseless_compute_result 3 3 0 5 = 1 :=
  C1_noiseless_accuracy 3 3 0 5 (by decide) (by decide) (Or.inl rfl) (by decide)

end BValg
